import Mathlib

/-!
Shallow embedding of the go-perfevent repository (Linux perf_event bindings):
the counter value scaling (perf/counter.go), the PMU bit-format scattering
(events/pmu.go), built-in event resolution (events/builtin.go), the event
resolver (events/parse.go), the once-map (events/oncemap), and the counter
group read decoding (perf/counter.go).

Machine integers (Go uint64) are modelled as Nat with explicit reduction
modulo 2^64 where Go's wrap-around or shift truncation matters.  Go float64
values that only flow through equality tests and exact products are modelled
as rationals.  Go maps keyed by strings are modelled as association lists
(the keys in each table are distinct, so lookup agrees with the map).
-/

def U64 : Nat := 2 ^ 64

/-- Go's `x << n` on `uint64`: shift then truncate to 64 bits. -/
def goShl (a b : Nat) : Nat := (a <<< b) % U64

/-- Go's `x - 1` on `uint64` (wraps at zero). -/
def goDec (a : Nat) : Nat := (a % U64 + (U64 - 1)) % U64

/-- Go's `(uint64(1) << n) - 1`: the low-`n`-bits mask (all ones when `n ≥ 64`). -/
def maskOf (n : Nat) : Nat := goDec (goShl 1 n)

/-- Go's `a &^ b` (AND NOT), written with kernel-accelerated operations:
since the bits of `a &&& b` are a subset of those of `a`, xor-ing them out
clears exactly the bits of `b`. -/
def goAndNot (a b : Nat) : Nat := a ^^^ (a &&& b)

deriving instance DecidableEq for Except

/-! ## perf/counter.go: Count and Value -/

/-- The `scale` struct of perf/counter.go: a conversion factor and unit.
Go `float64` is modelled as `ℚ` (only exact comparisons and products of the
scale factor are relevant to the claims). -/
structure GoScale where
  scale : ℚ
  unit : String
deriving DecidableEq, Repr

/-- The `Count` struct of perf/counter.go: one reading of one event. -/
structure Count where
  rawValue : Nat
  timeEnabled : Nat
  timeRunning : Nat
  scale : GoScale
deriving DecidableEq, Repr

/-- `Count.Value` from perf/counter.go lines 213-224, branch for branch:
the fast path (`TimeEnabled == TimeRunning && scale == 1.0`) is tested
first, then the `TimeRunning == 0` guard, then the scaled formula. -/
def Count.Value (c : Count) : ℚ × String :=
  if c.timeEnabled = c.timeRunning ∧ c.scale.scale = 1 then
    ((c.rawValue : ℚ), c.scale.unit)
  else if c.timeRunning = 0 then
    (0, c.scale.unit)
  else
    ((c.rawValue : ℚ) * ((c.timeEnabled : ℚ) / (c.timeRunning : ℚ)) * c.scale.scale,
      c.scale.unit)

/-- The three-branch rule in the order claimed by the spec (`time_running == 0`
tested first).  Written from the spec's words, for comparison with
`Count.Value` above. -/
def Count.specOrderValue (c : Count) : ℚ :=
  if c.timeRunning = 0 then 0
  else if c.timeEnabled = c.timeRunning ∧ c.scale.scale = 1 then (c.rawValue : ℚ)
  else (c.rawValue : ℚ) * ((c.timeEnabled : ℚ) / (c.timeRunning : ℚ)) * c.scale.scale

/-! ## events/pmu.go: PMU descriptors and bit-format scattering -/

/-- A `(shift, nBits)` bit range of a PMU format (struct `formatBitRange`). -/
structure formatBitRange where
  shift : Nat
  nBits : Nat
deriving DecidableEq, Repr

/-- The destination register selected by a `pmuFormat`'s `field` function
(`fieldConfig`, `fieldConfig1`, `fieldConfig2`, `fieldPeriod`). -/
inductive pmuField
  | config
  | config1
  | config2
  | period
deriving DecidableEq, Repr

/-- The resolved event attribute record (struct `rawEvent` of events/parse.go).
The `scale` and `unit` fields are the ones written by `resolvePMUEvent`
(events/pmu.go lines 34-35) and exercised by the `setScale` test helper. -/
structure rawEvent where
  name : String
  pmu : Nat
  config : Nat
  config1 : Nat
  config2 : Nat
  period : Nat
  scale : ℚ
  unit : String
deriving DecidableEq, Repr

/-- Read the destination register selected by a format's field function. -/
def rawEvent.getField (e : rawEvent) : pmuField → Nat
  | .config => e.config
  | .config1 => e.config1
  | .config2 => e.config2
  | .period => e.period

/-- Write the destination register selected by a format's field function. -/
def rawEvent.setField (e : rawEvent) : pmuField → Nat → rawEvent
  | .config, v => { e with config := v }
  | .config1, v => { e with config1 := v }
  | .config2, v => { e with config2 := v }
  | .period, v => { e with period := v }

/-- A named PMU bit format (struct `pmuFormat`). -/
structure pmuFormat where
  name : String
  field : pmuField
  bits : List formatBitRange
deriving DecidableEq, Repr

/-- The `ParamOutOfRange` error data carried by the message
`"parameter %s=%d not in range 0-%d"` of `pmuFormat.set`. -/
structure SetError where
  param : String
  value : Nat
  max : Nat
deriving DecidableEq, Repr

/-- The loop body of `pmuFormat.set` (events/pmu.go lines 101-107), iterated
over the ranges: clear the range, or in the low bits of `x`, shift `x` right.
Returns the final register value, the remaining bits of `x`, and `totalBits`. -/
def setLoop : List formatBitRange → Nat → Nat → Nat × Nat × Nat
  | [], field, x => (field, x, 0)
  | r :: rest, field, x =>
    let mask := maskOf r.nBits
    let field1 := goAndNot field (goShl mask r.shift)
    let field2 := field1 ||| goShl (x &&& mask) r.shift
    let out := setLoop rest field2 (x >>> r.nBits)
    (out.1, out.2.1, r.nBits + out.2.2)

/-- `pmuFormat.set` (events/pmu.go lines 97-114).  The register writes happen
unconditionally; the range check on the leftover bits of the value comes
after them, so the mutated record is returned alongside the error. -/
def pmuFormat.set (f : pmuFormat) (e : rawEvent) (val : Nat) : rawEvent × Option SetError :=
  let out := setLoop f.bits (e.getField f.field) val
  let e' := e.setField f.field out.1
  if out.2.1 ≠ 0 then
    (e', some ⟨f.name, val, maskOf out.2.2⟩)
  else
    (e', none)

/-- Sum of the bit counts of a format's ranges (the `totalBits` accumulator). -/
def totalBits (bits : List formatBitRange) : Nat := (bits.map (·.nBits)).sum

/-- A bit position `p` lies outside every range of the format. -/
def outsideRanges (bits : List formatBitRange) (p : Nat) : Prop :=
  ∀ r ∈ bits, ¬(r.shift ≤ p ∧ p < r.shift + r.nBits)

/-- Number of value bits consumed by the ranges before index `j`. -/
def offsetAt (bits : List formatBitRange) (j : Nat) : Nat := totalBits (bits.take j)

/-- Ranges fit in the 64-bit register and are pairwise disjoint (the shape
every sysfs format description denotes). -/
def rangesWF (bits : List formatBitRange) : Prop :=
  (∀ r ∈ bits, r.shift + r.nBits ≤ 64) ∧
  bits.Pairwise (fun r1 r2 => r1.shift + r1.nBits ≤ r2.shift ∨ r2.shift + r2.nBits ≤ r1.shift)

theorem maskOf_eq (n : Nat) : maskOf n = 2 ^ min n 64 - 1 := by
  unfold maskOf goDec goShl U64
  rw [Nat.shiftLeft_eq, one_mul]
  rcases Nat.lt_or_ge n 64 with h | h
  · have h2 : 2 ^ n < 2 ^ 64 := Nat.pow_lt_pow_right (by norm_num) h
    have h3 : 2 ^ n % 2 ^ 64 = 2 ^ n := Nat.mod_eq_of_lt h2
    rw [h3, h3]
    have h4 : 2 ^ n + (2 ^ 64 - 1) = (2 ^ n - 1) + 2 ^ 64 := by
      have : (1:Nat) ≤ 2 ^ n := Nat.one_le_two_pow
      omega
    rw [h4, Nat.add_mod_right, Nat.mod_eq_of_lt (by omega),
      Nat.min_eq_left (Nat.le_of_lt h)]
  · have h1 : 2 ^ n % 2 ^ 64 = 0 := Nat.mod_eq_zero_of_dvd (pow_dvd_pow 2 h)
    rw [h1, Nat.zero_mod, Nat.zero_add, Nat.mod_eq_of_lt (by omega), Nat.min_eq_right h]

theorem testBit_maskOf (n i : Nat) : (maskOf n).testBit i = decide (i < min n 64) := by
  rw [maskOf_eq, Nat.testBit_two_pow_sub_one]

theorem setLoop_leftover (bits : List formatBitRange) (f x : Nat) :
    (setLoop bits f x).2.1 = x >>> totalBits bits := by
  induction bits generalizing f x with
  | nil => simp [setLoop, totalBits]
  | cons r rest ih =>
    simp only [setLoop, totalBits, List.map_cons, List.sum_cons]
    rw [ih, Nat.shiftRight_add]
    rfl

theorem setLoop_total (bits : List formatBitRange) (f x : Nat) :
    (setLoop bits f x).2.2 = totalBits bits := by
  induction bits generalizing f x with
  | nil => simp [setLoop, totalBits]
  | cons r rest ih =>
    simp only [setLoop, totalBits, List.map_cons, List.sum_cons]
    rw [ih]; rfl

theorem testBit_goAndNot (a b p : Nat) :
    (goAndNot a b).testBit p = (a.testBit p && !(b.testBit p)) := by
  unfold goAndNot
  rw [Nat.testBit_xor, Nat.testBit_land]
  cases a.testBit p <;> cases b.testBit p <;> rfl

theorem testBit_goShl_masked (y n s p : Nat) (h : ¬(s ≤ p ∧ p < s + n)) :
    (goShl (y &&& maskOf n) s).testBit p = false := by
  unfold goShl U64
  rw [Nat.testBit_mod_two_pow, Nat.testBit_shiftLeft, Nat.testBit_land, testBit_maskOf]
  by_cases h1 : p < 64
  · by_cases h2 : s ≤ p
    · have h3 : ¬(p - s < min n 64) := by omega
      simp [h3]
    · simp [h2]
  · simp [h1]

theorem testBit_goShl_mask (n s p : Nat) (h : ¬(s ≤ p ∧ p < s + n)) :
    (goShl (maskOf n) s).testBit p = false := by
  unfold goShl U64
  rw [Nat.testBit_mod_two_pow, Nat.testBit_shiftLeft, testBit_maskOf]
  by_cases h1 : p < 64
  · by_cases h2 : s ≤ p
    · have h3 : ¬(p - s < min n 64) := by omega
      simp [h3]
    · simp [h2]
  · simp [h1]

theorem setLoop_outside (bits : List formatBitRange) (f x p : Nat)
    (h : outsideRanges bits p) :
    ((setLoop bits f x).1).testBit p = f.testBit p := by
  induction bits generalizing f x with
  | nil => simp [setLoop]
  | cons r rest ih =>
    have hr : ¬(r.shift ≤ p ∧ p < r.shift + r.nBits) := h r (.head _)
    have hrest : outsideRanges rest p := fun r2 h2 => h r2 (.tail _ h2)
    simp only [setLoop]
    rw [ih _ _ hrest, Nat.testBit_lor, testBit_goAndNot,
      testBit_goShl_mask _ _ _ hr, testBit_goShl_masked _ _ _ _ hr]
    simp

theorem setLoop_scatter (bits : List formatBitRange) (hwf : rangesWF bits)
    (j i f x : Nat) (hj : j < bits.length)
    (hi : i < (bits.getD j ⟨0,0⟩).nBits) :
    ((setLoop bits f x).1).testBit ((bits.getD j ⟨0,0⟩).shift + i)
      = x.testBit (offsetAt bits j + i) := by
  induction bits generalizing j f x with
  | nil => simp at hj
  | cons r rest ih =>
    obtain ⟨hbound, hpw⟩ := hwf
    match j with
    | 0 =>
      simp only [List.getD_cons_zero] at hi ⊢
      have hb : r.shift + r.nBits ≤ 64 := hbound r (.head _)
      have hout : outsideRanges rest (r.shift + i) := by
        intro r2 hr2
        have hd := (List.pairwise_cons.mp hpw).1 r2 hr2
        omega
      simp only [setLoop]
      rw [setLoop_outside _ _ _ _ hout, Nat.testBit_lor, testBit_goAndNot]
      have hmask : (goShl (maskOf r.nBits) r.shift).testBit (r.shift + i) = true := by
        unfold goShl U64
        rw [Nat.testBit_mod_two_pow, Nat.testBit_shiftLeft, testBit_maskOf]
        have h1 : r.shift + i < 64 := by omega
        have h2 : r.shift ≤ r.shift + i := by omega
        have h3 : r.shift + i - r.shift < min r.nBits 64 := by omega
        simp [h1, h2, h3]
        omega
      have hwrite : (goShl (x &&& maskOf r.nBits) r.shift).testBit (r.shift + i)
          = x.testBit i := by
        unfold goShl U64
        rw [Nat.testBit_mod_two_pow, Nat.testBit_shiftLeft, Nat.testBit_land, testBit_maskOf]
        have h1 : r.shift + i < 64 := by omega
        have h2 : r.shift ≤ r.shift + i := by omega
        have h3 : r.shift + i - r.shift = i := by omega
        have h4 : i < min r.nBits 64 := by omega
        simp [h1, h2, h3, h4]
      rw [hmask, hwrite]
      simp [offsetAt, totalBits]
    | (j' + 1) =>
      simp only [List.getD_cons_succ] at hi ⊢
      simp only [setLoop]
      have hwrest : rangesWF rest :=
        ⟨fun r2 h2 => hbound r2 (.tail _ h2), (List.pairwise_cons.mp hpw).2⟩
      rw [ih hwrest j' _ _ (by simpa using hj) hi, Nat.testBit_shiftRight]
      congr 1
      simp only [offsetAt, totalBits, List.take, List.map_cons, List.sum_cons]
      omega

theorem getField_setField_same (e : rawEvent) (g : pmuField) (v : Nat) :
    (e.setField g v).getField g = v := by
  cases g <;> rfl

theorem getField_setField_other (e : rawEvent) (g g' : pmuField) (v : Nat) (h : g' ≠ g) :
    (e.setField g v).getField g' = e.getField g' := by
  cases g <;> cases g' <;> first | rfl | exact absurd rfl h

theorem offsetAt_lt (bits : List formatBitRange) (j i : Nat) (hj : j < bits.length)
    (hi : i < (bits.getD j ⟨0,0⟩).nBits) :
    offsetAt bits j + i < totalBits bits := by
  induction bits generalizing j with
  | nil => simp at hj
  | cons r rest ih =>
    match j with
    | 0 =>
      simp only [List.getD_cons_zero] at hi
      simp only [offsetAt, totalBits, List.take, List.map_cons, List.sum_cons]
      simp only [List.map_nil, List.sum_nil]
      omega
    | (j' + 1) =>
      simp only [List.getD_cons_succ] at hi
      have := ih j' (by simpa using hj) hi
      simp only [offsetAt, totalBits, List.take, List.map_cons, List.sum_cons] at this ⊢
      omega

theorem shiftRight_eq_zero_iff (x w : Nat) : x >>> w = 0 ↔ x < 2 ^ w := by
  rw [Nat.shiftRight_eq_div_pow]
  exact Nat.div_eq_zero_iff (Nat.pos_pow_of_pos w (by norm_num))

theorem set_fst (f : pmuFormat) (e : rawEvent) (val : Nat) :
    (f.set e val).1 = e.setField f.field (setLoop f.bits (e.getField f.field) val).1 := by
  simp only [pmuFormat.set]
  split <;> rfl

theorem set_snd (f : pmuFormat) (e : rawEvent) (val : Nat) :
    (f.set e val).2 = if val >>> totalBits f.bits ≠ 0 then
      some ⟨f.name, val, maskOf (totalBits f.bits)⟩ else none := by
  simp only [pmuFormat.set, setLoop_leftover, setLoop_total]
  split <;> rfl

/-- The zero-valued `rawEvent` struct with a name, as created at the top of
`resolveEvent` by `rawEvent{name: enc}` (all other fields Go zero values). -/
def emptyRawEvent (name : String) : rawEvent :=
  ⟨name, 0, 0, 0, 0, 0, 0, ""⟩

/-- The `event` format of the test PMU (`config:0-7`). -/
def fmtEvent : pmuFormat := ⟨"event", .config, [⟨0, 8⟩]⟩

/-- The `umask` format of the test PMU (`config:8-15`). -/
def fmtUmask : pmuFormat := ⟨"umask", .config, [⟨8, 8⟩]⟩

/-- The `edge` format of the test PMU (`config:18`). -/
def fmtEdge : pmuFormat := ⟨"edge", .config, [⟨18, 1⟩]⟩

/-- The `splitevent` format of the test PMU (`config:0,2-3,5`). -/
def fmtSplit : pmuFormat := ⟨"splitevent", .config, [⟨0, 1⟩, ⟨2, 2⟩, ⟨5, 1⟩]⟩

/-- C2: for every `BitFormat` with total width `w` and value `v`,
`set` succeeds iff `v < 2^w`; on failure the error carries
`max = (1 << w) - 1` (Go 64-bit arithmetic); registers other than the
destination are untouched; on success the destination's bits outside the
format's ranges are preserved, and (for in-bounds, pairwise-disjoint
ranges) the bits inside the ranges receive `v` scattered low-bits-first
into the ranges in their listed order. -/
theorem pmuFormat_set_spec (f : pmuFormat) (e : rawEvent) (val : Nat) :
    ((f.set e val).2 = none ↔ val < 2 ^ totalBits f.bits) ∧
    (2 ^ totalBits f.bits ≤ val →
      (f.set e val).2 = some ⟨f.name, val, maskOf (totalBits f.bits)⟩) ∧
    (∀ g, g ≠ f.field → ((f.set e val).1).getField g = e.getField g) ∧
    ((f.set e val).2 = none → ∀ p, outsideRanges f.bits p →
      (((f.set e val).1).getField f.field).testBit p
        = (e.getField f.field).testBit p) ∧
    ((f.set e val).2 = none → rangesWF f.bits → ∀ j i, j < f.bits.length →
      i < (f.bits.getD j ⟨0, 0⟩).nBits →
      (((f.set e val).1).getField f.field).testBit ((f.bits.getD j ⟨0, 0⟩).shift + i)
        = val.testBit (offsetAt f.bits j + i)) := by
  refine ⟨?_, ?_, ?_, ?_, ?_⟩
  · rw [set_snd]
    by_cases h : val >>> totalBits f.bits = 0
    · simp [h, (shiftRight_eq_zero_iff val (totalBits f.bits)).mp h]
    · rw [if_pos h]
      constructor
      · intro hc; exact absurd hc (Option.some_ne_none _)
      · intro hc
        exact absurd ((shiftRight_eq_zero_iff val (totalBits f.bits)).mpr hc) h
  · intro hv
    rw [set_snd]
    have h : val >>> totalBits f.bits ≠ 0 := by
      intro h0
      exact absurd ((shiftRight_eq_zero_iff val (totalBits f.bits)).mp h0)
        (Nat.not_lt.mpr hv)
    simp [h]
  · intro g hg
    rw [set_fst]
    exact getField_setField_other e f.field g _ hg
  · intro _ p hp
    rw [set_fst, getField_setField_same]
    exact setLoop_outside f.bits (e.getField f.field) val p hp
  · intro _ hwf j i hj hi
    rw [set_fst, getField_setField_same]
    exact setLoop_scatter f.bits hwf j i (e.getField f.field) val hj hi

/-- Witness for C2: the `event=0x1ff` boundary case fails with
`max = 255`, and `splitevent=0x8` succeeds writing value bit 3 into
register bit 5 (the third listed range). -/
theorem pmuFormat_set_spec_w :
    ((2:Nat) ^ totalBits fmtEvent.bits ≤ 511 ∧
      (fmtEvent.set (emptyRawEvent "e") 511).2
        = some ⟨"event", 511, maskOf (totalBits fmtEvent.bits)⟩) ∧
    ((fmtSplit.set (emptyRawEvent "e") 8).2 = none ∧
      (((fmtSplit.set (emptyRawEvent "e") 8).1).getField .config).testBit (5 + 0)
        = (8 : Nat).testBit (offsetAt fmtSplit.bits 2 + 0)) := by
  have hs : (fmtSplit.set (emptyRawEvent "e") 8).2 = none :=
    (pmuFormat_set_spec fmtSplit (emptyRawEvent "e") 8).1.mpr (by decide)
  refine ⟨⟨by decide, (pmuFormat_set_spec fmtEvent (emptyRawEvent "e") 511).2.1 (by decide)⟩,
    hs, ?_⟩
  exact (pmuFormat_set_spec fmtSplit (emptyRawEvent "e") 8).2.2.2.2 hs
    (by constructor
        · intro r hr; fin_cases hr <;> decide
        · decide)
    2 0 (by decide) (by decide)

/-- C9: when the value is out of range for the format's width, the low `w`
bits of the value have still been scattered into the destination's ranges
(the write is not rolled back), and the `ParamOutOfRange` error is
returned. -/
theorem pmuFormat_set_partial_write (f : pmuFormat) (e : rawEvent) (val : Nat)
    (hwf : rangesWF f.bits) (hval : 2 ^ totalBits f.bits ≤ val) :
    (f.set e val).2 = some ⟨f.name, val, maskOf (totalBits f.bits)⟩ ∧
    (∀ j i, j < f.bits.length → i < (f.bits.getD j ⟨0, 0⟩).nBits →
      ((((f.set e val).1).getField f.field).testBit ((f.bits.getD j ⟨0, 0⟩).shift + i)
          = val.testBit (offsetAt f.bits j + i) ∧
        offsetAt f.bits j + i < totalBits f.bits)) := by
  constructor
  · rw [set_snd]
    have h : val >>> totalBits f.bits ≠ 0 := by
      intro h0
      exact absurd ((shiftRight_eq_zero_iff val (totalBits f.bits)).mp h0)
        (Nat.not_lt.mpr hval)
    simp [h]
  · intro j i hj hi
    refine ⟨?_, offsetAt_lt f.bits j i hj hi⟩
    rw [set_fst, getField_setField_same]
    exact setLoop_scatter f.bits hwf j i (e.getField f.field) val hj hi

/-- Witness for C9: `event=0x1d0` is out of range for the 8-bit `event`
format; the error is returned and value bit 4 has still been written into
register bit 4. -/
theorem pmuFormat_set_partial_write_w :
    (fmtEvent.set (emptyRawEvent "e") 464).2
      = some ⟨"event", 464, maskOf (totalBits fmtEvent.bits)⟩ ∧
    ((((fmtEvent.set (emptyRawEvent "e") 464).1).getField .config).testBit (0 + 4)
      = (464 : Nat).testBit (offsetAt fmtEvent.bits 0 + 4) ∧
      offsetAt fmtEvent.bits 0 + 4 < totalBits fmtEvent.bits) := by
  have hwf : rangesWF fmtEvent.bits := by
    constructor
    · intro r hr; fin_cases hr; decide
    · decide
  exact ⟨(pmuFormat_set_partial_write fmtEvent (emptyRawEvent "e") 464 hwf (by decide)).1,
    (pmuFormat_set_partial_write fmtEvent (emptyRawEvent "e") 464 hwf (by decide)).2
      0 4 (by decide) (by decide)⟩

/-- C1 counterexample: the code tests the fast path before the
`TimeRunning == 0` guard, so a `Count` with `raw = 5`,
`time_enabled = time_running = 0` and `scale = 1.0` yields 5, while the
claimed branch order (`time_running == 0` first) yields 0. -/
theorem count_value_order_cex :
    (Count.Value ⟨5, 0, 0, ⟨1, ""⟩⟩).1 = 5 ∧
    Count.specOrderValue ⟨5, 0, 0, ⟨1, ""⟩⟩ = 0 ∧
    (⟨5, 0, 0, ⟨1, ""⟩⟩ : Count).timeRunning = 0 := by
  refine ⟨?_, ?_, rfl⟩
  · simp [Count.Value]
  · simp [Count.specOrderValue]

/-- C1 amended: `Value` checks the fast path
(`time_enabled == time_running && scale == 1.0`) first; consequently for
`time_running = 0` the result is the raw value when `time_enabled = 0` and
`scale = 1.0`, and 0 otherwise; for `time_running ≠ 0` the result always
equals `raw * (time_enabled / time_running) * scale` (the fast path agrees
with that product); the unit is passed through unchanged. -/
theorem count_value_amended (c : Count) :
    (c.timeRunning = 0 →
      (c.Value).1 = if c.timeEnabled = 0 ∧ c.scale.scale = 1
        then (c.rawValue : ℚ) else 0) ∧
    (c.timeRunning ≠ 0 →
      (c.Value).1
        = (c.rawValue : ℚ) * ((c.timeEnabled : ℚ) / (c.timeRunning : ℚ)) * c.scale.scale) ∧
    (c.Value).2 = c.scale.unit := by
  refine ⟨?_, ?_, ?_⟩
  · intro h0
    by_cases hf : c.timeEnabled = c.timeRunning ∧ c.scale.scale = 1
    · have hte : c.timeEnabled = 0 := by rw [hf.1, h0]
      simp only [Count.Value, if_pos hf, if_pos (⟨hte, hf.2⟩ :
        c.timeEnabled = 0 ∧ c.scale.scale = 1)]
    · have hne : ¬(c.timeEnabled = 0 ∧ c.scale.scale = 1) := by
        intro h
        exact hf ⟨by rw [h.1, h0], h.2⟩
      simp only [Count.Value, if_neg hf, if_pos h0, if_neg hne]
  · intro h0
    by_cases hf : c.timeEnabled = c.timeRunning ∧ c.scale.scale = 1
    · have hcast : (c.timeRunning : ℚ) ≠ 0 := Nat.cast_ne_zero.mpr h0
      simp only [Count.Value, hf.1, hf.2]
      rw [div_self hcast, mul_one, mul_one]
      simp
    · simp only [Count.Value, if_neg hf, if_neg h0]
  · simp only [Count.Value]
    split
    · rfl
    split <;> rfl

/-- Witness for C1's amended theorem: `{raw=7, te=3, tr=0, scale=2}`
yields 0 (time_running zero, fast path not applicable), and
`{raw=6, te=4, tr=2, scale=1}` yields `6 * (4/2) * 1 = 12`. -/
theorem count_value_amended_w :
    (Count.Value ⟨7, 3, 0, ⟨2, "u"⟩⟩).1 = 0 ∧
    (Count.Value ⟨6, 4, 2, ⟨1, ""⟩⟩).1 = 12 := by
  constructor
  · have h := (count_value_amended ⟨7, 3, 0, ⟨2, "u"⟩⟩).1 rfl
    rw [if_neg (by norm_num)] at h
    exact h
  · have h := (count_value_amended ⟨6, 4, 2, ⟨1, ""⟩⟩).2.1 (by norm_num)
    rw [h]
    norm_num

/-! ## events/builtin.go: built-in event tables and legacy-cache parsing -/

/-- Kernel perf type constants used by the built-in tables. -/
def PERF_TYPE_HARDWARE : Nat := 0

def PERF_TYPE_SOFTWARE : Nat := 1

def PERF_TYPE_HW_CACHE : Nat := 3

def PERF_TYPE_RAW : Nat := 4

/-- A built-in event: `(pmu type, config)` (struct `builtinEvent`). -/
structure builtinEvent where
  pmu : Nat
  config : Nat
deriving DecidableEq, Repr

/-- Association-list lookup standing in for a Go map (all keys distinct). -/
def lookupTbl {α : Type} (tbl : List (List Char × α)) (k : List Char) : Option α :=
  match tbl with
  | [] => none
  | (n, c) :: rest => if k = n then some c else lookupTbl rest k

/-- `builtinEvents.cpu`: hardware events (PERF_COUNT_HW_*), from the `hw`
registrations in builtin.go. -/
def builtinCPU : List (List Char × builtinEvent) :=
  [("cpu-cycles".toList, ⟨PERF_TYPE_HARDWARE, 0⟩),
   ("cycles".toList, ⟨PERF_TYPE_HARDWARE, 0⟩),
   ("instructions".toList, ⟨PERF_TYPE_HARDWARE, 1⟩),
   ("cache-references".toList, ⟨PERF_TYPE_HARDWARE, 2⟩),
   ("cache-misses".toList, ⟨PERF_TYPE_HARDWARE, 3⟩),
   ("branch-instructions".toList, ⟨PERF_TYPE_HARDWARE, 4⟩),
   ("branches".toList, ⟨PERF_TYPE_HARDWARE, 4⟩),
   ("branch-misses".toList, ⟨PERF_TYPE_HARDWARE, 5⟩),
   ("bus-cycles".toList, ⟨PERF_TYPE_HARDWARE, 6⟩),
   ("stalled-cycles-frontend".toList, ⟨PERF_TYPE_HARDWARE, 7⟩),
   ("idle-cycles-frontend".toList, ⟨PERF_TYPE_HARDWARE, 7⟩),
   ("stalled-cycles-backend".toList, ⟨PERF_TYPE_HARDWARE, 8⟩),
   ("idle-cycles-backend".toList, ⟨PERF_TYPE_HARDWARE, 8⟩),
   ("ref-cycles".toList, ⟨PERF_TYPE_HARDWARE, 9⟩)]

/-- `builtinEvents.software`: software events (PERF_COUNT_SW_*), from the
`sw` registrations in builtin.go. -/
def software : List (List Char × builtinEvent) :=
  [("cpu-clock".toList, ⟨PERF_TYPE_SOFTWARE, 0⟩),
   ("task-clock".toList, ⟨PERF_TYPE_SOFTWARE, 1⟩),
   ("page-faults".toList, ⟨PERF_TYPE_SOFTWARE, 2⟩),
   ("faults".toList, ⟨PERF_TYPE_SOFTWARE, 2⟩),
   ("context-switches".toList, ⟨PERF_TYPE_SOFTWARE, 3⟩),
   ("cs".toList, ⟨PERF_TYPE_SOFTWARE, 3⟩),
   ("cpu-migrations".toList, ⟨PERF_TYPE_SOFTWARE, 4⟩),
   ("migrations".toList, ⟨PERF_TYPE_SOFTWARE, 4⟩),
   ("minor-faults".toList, ⟨PERF_TYPE_SOFTWARE, 5⟩),
   ("major-faults".toList, ⟨PERF_TYPE_SOFTWARE, 6⟩),
   ("alignment-faults".toList, ⟨PERF_TYPE_SOFTWARE, 7⟩),
   ("emulation-faults".toList, ⟨PERF_TYPE_SOFTWARE, 8⟩),
   ("dummy".toList, ⟨PERF_TYPE_SOFTWARE, 9⟩),
   ("bpf-output".toList, ⟨PERF_TYPE_SOFTWARE, 10⟩)]

/-- `builtinEvents.cache`: cache level names with PERF_COUNT_HW_CACHE_*
configs, in the order produced by builtin.go's length-descending sort
(ties keep registration order; `findCache` results do not depend on the
order among equal-length names, since two distinct equal-length names
cannot match the same string). -/
def cache : List (List Char × Nat) :=
  [("Instruction-TLB".toList, 4),
   ("L1-instruction".toList, 1),
   ("L1-dcache".toList, 0),
   ("L1-icache".toList, 1),
   ("Data-TLB".toList, 3),
   ("branches".toList, 5),
   ("L1-data".toList, 0),
   ("branch".toList, 5),
   ("d-tlb".toList, 3),
   ("i-tlb".toList, 4),
   ("l1-d".toList, 0),
   ("l1-i".toList, 1),
   ("dTLB".toList, 3),
   ("iTLB".toList, 4),
   ("node".toList, 6),
   ("l1d".toList, 0),
   ("l1i".toList, 1),
   ("LLC".toList, 2),
   ("bpu".toList, 5),
   ("btb".toList, 5),
   ("bpc".toList, 5),
   ("L2".toList, 2)]

/-- `builtinEvents.cacheOp`: cache op names with PERF_COUNT_HW_CACHE_OP_*
configs, length-descending. -/
def cacheOp : List (List Char × Nat) :=
  [("speculative-read".toList, 2),
   ("speculative-load".toList, 2),
   ("prefetches".toList, 2),
   ("prefetch".toList, 2),
   ("stores".toList, 1),
   ("loads".toList, 0),
   ("store".toList, 1),
   ("write".toList, 1),
   ("load".toList, 0),
   ("read".toList, 0)]

/-- `builtinEvents.cacheResult`: cache result names with
PERF_COUNT_HW_CACHE_RESULT_* configs, length-descending. -/
def cacheResult : List (List Char × Nat) :=
  [("Reference".toList, 0),
   ("access".toList, 0),
   ("misses".toList, 1),
   ("refs".toList, 0),
   ("miss".toList, 1),
   ("ops".toList, 0)]

/-- `builtinEvents.cacheAllowed`: cache level → bitmap of permitted ops
(bit 0 = read, bit 1 = write, bit 2 = prefetch); a missing key reads as 0
like a Go map. -/
def cacheAllowed : Nat → Nat
  | 0 => 7
  | 1 => 5
  | 2 => 7
  | 3 => 7
  | 4 => 1
  | 5 => 1
  | 6 => 7
  | _ => 0

/-- The `findCache` closure of `resolveBuiltinEvent`: first entry whose name
equals `s` or is a prefix of `s` followed by `-`; returns the config and
the remainder after the dash. -/
def findCache (s : List Char) : List (List Char × Nat) → Option (Nat × List Char)
  | [] => none
  | (name, cfg) :: rest =>
    if s = name then some (cfg, [])
    else if name ++ ['-'] <+: s then some (cfg, s.drop (name.length + 1))
    else findCache s rest

/-- The two-iteration op/result loop of `resolveBuiltinEvent`
(builtin.go lines 173-186), with explicit fuel for the loop counter `i`:
try an op token if none was seen, else a result token if none was seen;
an iteration that consumes nothing leaves the state unchanged. -/
def cacheLoop : Nat → List Char → Nat → Nat → Bool → Bool → List Char × Nat × Nat
  | 0, s, op, res, _, _ => (s, op, res)
  | n + 1, s, op, res, haveOp, haveRes =>
    if s = [] then (s, op, res)
    else if haveOp = false then
      match findCache s cacheOp with
      | some (op2, s2) => cacheLoop n s2 op2 res true haveRes
      | none =>
        if haveRes = false then
          match findCache s cacheResult with
          | some (r2, s2) => cacheLoop n s2 op r2 haveOp true
          | none => cacheLoop n s op res haveOp haveRes
        else cacheLoop n s op res haveOp haveRes
    else if haveRes = false then
      match findCache s cacheResult with
      | some (r2, s2) => cacheLoop n s2 op r2 haveOp true
      | none => cacheLoop n s op res haveOp haveRes
    else cacheLoop n s op res haveOp haveRes

/-- The legacy-cache branch of `resolveBuiltinEvent` (builtin.go lines
164-194): match a level name, run the op/result loop with defaults
`op = read`, `result = access`, require an empty remainder and an allowed
`(level, op)` pair, and pack `config = level | op<<8 | result<<16`. -/
def resolveLegacyCache (eventName : List Char) : Option builtinEvent :=
  match findCache eventName cache with
  | none => none
  | some (config, s) =>
    let out := cacheLoop 2 s 0 0 false false
    if out.1 = [] ∧ cacheAllowed config &&& (1 <<< out.2.1) ≠ 0 then
      some ⟨PERF_TYPE_HW_CACHE, config ||| (out.2.1 <<< 8) ||| (out.2.2 <<< 16)⟩
    else none

/-- `resolveBuiltinEvent` (builtin.go lines 132-196): gate on the PMU name,
then the hardware table (any allowed PMU name), then the software table
(empty PMU name only), then legacy-cache parsing. -/
def resolveBuiltinEvent (pmu eventName : List Char) : Option builtinEvent :=
  if ¬(pmu = [] ∨ pmu = "cpu".toList) then none
  else match lookupTbl builtinCPU eventName with
  | some e => some e
  | none =>
    match (if pmu = [] then lookupTbl software eventName else none) with
    | some e => some e
    | none => resolveLegacyCache eventName

/-- `s` matches a table name by the `findCache` rule: equal, or the name
followed by `-` starts `s`. -/
def MatchesName (s name : List Char) : Prop :=
  s = name ∨ name ++ ['-'] <+: s

theorem findCache_sound (s : List Char) (tbl : List (List Char × Nat)) (cfg : Nat)
    (rest : List Char) (h : findCache s tbl = some (cfg, rest)) :
    ∃ name, (name, cfg) ∈ tbl ∧ ((rest = [] ∧ s = name) ∨ s = name ++ '-' :: rest) := by
  induction tbl with
  | nil => simp [findCache] at h
  | cons p tail ih =>
    obtain ⟨name, c⟩ := p
    simp only [findCache] at h
    by_cases h1 : s = name
    · rw [if_pos h1] at h
      have hcr : c = cfg ∧ ([] : List Char) = rest := by simpa using h
      refine ⟨name, ?_, Or.inl ⟨hcr.2.symm, h1⟩⟩
      rw [← hcr.1]
      exact List.mem_cons_self _ _
    · rw [if_neg h1] at h
      by_cases h2 : name ++ ['-'] <+: s
      · rw [if_pos h2] at h
        have hcr : c = cfg ∧ s.drop (name.length + 1) = rest := by simpa using h
        obtain ⟨t, ht⟩ := h2
        have hlen : (name ++ ['-']).length = name.length + 1 := by simp
        have hdrop : s.drop (name.length + 1) = t := by
          rw [← ht, ← hlen, List.drop_left]
        refine ⟨name, ?_, Or.inr ?_⟩
        · rw [← hcr.1]
          exact List.mem_cons_self _ _
        · rw [← hcr.2, hdrop, ← ht]
          simp
      · rw [if_neg h2] at h
        obtain ⟨n2, hmem, hcase⟩ := ih h
        exact ⟨n2, List.mem_cons_of_mem _ hmem, hcase⟩

theorem findCache_longest (s : List Char) (tbl : List (List Char × Nat)) (cfg : Nat)
    (rest : List Char)
    (hsort : tbl.Pairwise (fun a b => b.1.length ≤ a.1.length))
    (h : findCache s tbl = some (cfg, rest)) :
    ∃ name, (name, cfg) ∈ tbl ∧ ((rest = [] ∧ s = name) ∨ s = name ++ '-' :: rest) ∧
      ∀ p ∈ tbl, MatchesName s p.1 → p.1.length ≤ name.length := by
  induction tbl with
  | nil => simp [findCache] at h
  | cons q tail ih =>
    obtain ⟨name, c⟩ := q
    obtain ⟨hhead, htail⟩ := List.pairwise_cons.mp hsort
    simp only [findCache] at h
    by_cases h1 : s = name
    · rw [if_pos h1] at h
      have hcr : c = cfg ∧ ([] : List Char) = rest := by simpa using h
      refine ⟨name, ?_, Or.inl ⟨hcr.2.symm, h1⟩, ?_⟩
      · rw [← hcr.1]
        exact List.mem_cons_self _ _
      · intro p hp _
        rcases List.mem_cons.mp hp with hq | hq
        · rw [hq]
        · exact hhead p hq
    · rw [if_neg h1] at h
      by_cases h2 : name ++ ['-'] <+: s
      · rw [if_pos h2] at h
        have hcr : c = cfg ∧ s.drop (name.length + 1) = rest := by simpa using h
        obtain ⟨t, ht⟩ := h2
        have hlen : (name ++ ['-']).length = name.length + 1 := by simp
        have hdrop : s.drop (name.length + 1) = t := by
          rw [← ht, ← hlen, List.drop_left]
        refine ⟨name, ?_, Or.inr ?_, ?_⟩
        · rw [← hcr.1]
          exact List.mem_cons_self _ _
        · rw [← hcr.2, hdrop, ← ht]
          simp
        · intro p hp _
          rcases List.mem_cons.mp hp with hq | hq
          · rw [hq]
          · exact hhead p hq
      · rw [if_neg h2] at h
        obtain ⟨n2, hmem, hcase, hlong⟩ := ih htail h
        refine ⟨n2, List.mem_cons_of_mem _ hmem, hcase, ?_⟩
        intro p hp hm
        rcases List.mem_cons.mp hp with hq | hq
        · exfalso
          rcases hm with hm | hm
          · rw [hq] at hm
            exact h1 hm
          · rw [hq] at hm
            exact h2 hm
        · exact hlong p hq hm

/-- One token consumed from a string by the `findCache` matching rule:
either the whole string is a table name, or a table name followed by `-`
starts it and the remainder follows the dash. -/
inductive Consumed (tbl : List (List Char × Nat)) : List Char → Nat → List Char → Prop
  | whole {t c} : (t, c) ∈ tbl → Consumed tbl t c []
  | dashed {t c u} : (t, c) ∈ tbl → Consumed tbl (t ++ '-' :: u) c u

theorem findCache_consumed (s : List Char) (tbl : List (List Char × Nat))
    (cfg : Nat) (rest : List Char) (h : findCache s tbl = some (cfg, rest)) :
    Consumed tbl s cfg rest := by
  obtain ⟨name, hmem, hcase⟩ := findCache_sound s tbl cfg rest h
  rcases hcase with ⟨hr, hs⟩ | hs
  · rw [hr, hs]
    exact .whole hmem
  · rw [hs]
    exact .dashed hmem

/-- The declarative shape of the up-to-two op/result tokens after the cache
level name, written from the spec's words: nothing (both defaults), a
single op or result token, or one of each in either order; each category
at most once; defaults `op = read (0)`, `result = access (0)`. -/
inductive SuffixShape : List Char → Nat → Nat → Prop
  | empty : SuffixShape [] 0 0
  | opOnly {u o} : Consumed cacheOp u o [] → SuffixShape u o 0
  | resOnly {u r} : Consumed cacheResult u r [] → SuffixShape u 0 r
  | opThenRes {u o v r} : Consumed cacheOp u o v → Consumed cacheResult v r [] →
      SuffixShape u o r
  | resThenOp {u r v o} : Consumed cacheResult u r v → Consumed cacheOp v o [] →
      SuffixShape u o r

theorem cacheLoop_shape (u : List Char)
    (h : (cacheLoop 2 u 0 0 false false).1 = []) :
    SuffixShape u (cacheLoop 2 u 0 0 false false).2.1
      (cacheLoop 2 u 0 0 false false).2.2 := by
  by_cases hu : u = []
  · subst hu
    exact .empty
  · rcases h1 : findCache u cacheOp with _ | ⟨o, s2⟩
    · rcases h2 : findCache u cacheResult with _ | ⟨r, s3⟩
      · exfalso
        have heval : cacheLoop 2 u 0 0 false false = (u, 0, 0) := by
          simp [cacheLoop, hu, h1, h2]
        rw [heval] at h
        exact hu h
      · by_cases hs3 : s3 = []
        · have heval : cacheLoop 2 u 0 0 false false = ([], 0, r) := by
            simp [cacheLoop, hu, h1, h2, hs3]
          rw [heval]
          refine .resOnly ?_
          have := findCache_consumed u cacheResult r s3 h2
          rwa [hs3] at this
        · rcases h3 : findCache s3 cacheOp with _ | ⟨o2, s4⟩
          · exfalso
            have heval : cacheLoop 2 u 0 0 false false = (s3, 0, r) := by
              simp [cacheLoop, hu, h1, h2, hs3, h3]
            rw [heval] at h
            exact hs3 h
          · by_cases hs4 : s4 = []
            · have heval : cacheLoop 2 u 0 0 false false = ([], o2, r) := by
                simp [cacheLoop, hu, h1, h2, hs3, h3, hs4]
              rw [heval]
              refine .resThenOp (findCache_consumed u cacheResult r s3 h2) ?_
              have := findCache_consumed s3 cacheOp o2 s4 h3
              rwa [hs4] at this
            · exfalso
              have heval : cacheLoop 2 u 0 0 false false = (s4, o2, r) := by
                simp [cacheLoop, hu, h1, h2, hs3, h3]
              rw [heval] at h
              exact hs4 h
    · by_cases hs2 : s2 = []
      · have heval : cacheLoop 2 u 0 0 false false = ([], o, 0) := by
          simp [cacheLoop, hu, h1, hs2]
        rw [heval]
        refine .opOnly ?_
        have := findCache_consumed u cacheOp o s2 h1
        rwa [hs2] at this
      · rcases h2 : findCache s2 cacheResult with _ | ⟨r, s3⟩
        · exfalso
          have heval : cacheLoop 2 u 0 0 false false = (s2, o, 0) := by
            simp [cacheLoop, hu, h1, hs2, h2]
          rw [heval] at h
          exact hs2 h
        · by_cases hs3 : s3 = []
          · have heval : cacheLoop 2 u 0 0 false false = ([], o, r) := by
              simp [cacheLoop, hu, h1, hs2, h2, hs3]
            rw [heval]
            refine .opThenRes (findCache_consumed u cacheOp o s2 h1) ?_
            have := findCache_consumed s2 cacheResult r s3 h2
            rwa [hs3] at this
          · exfalso
            have heval : cacheLoop 2 u 0 0 false false = (s3, o, r) := by
              simp [cacheLoop, hu, h1, hs2, h2]
            rw [heval] at h
            exact hs3 h

/-- C4: every name accepted by legacy-cache parsing decomposes as the
longest matching level name (consumed whole or up to a `-`), followed by
up-to-two op/result tokens in either order with each category consumed at
most once and defaults `read`/`access`, with nothing left over; the
`(level, op)` pair passes the `cacheAllowed` check and the config is
`level | op<<8 | result<<16`; the malformed compound `l1d-loads-stores`
is rejected, while both orders of `l1d-loads-misses` agree. -/
theorem legacy_cache_parse_spec :
    (∀ s be, resolveLegacyCache s = some be →
      ∃ lvlName lvl rest, (lvlName, lvl) ∈ cache ∧
        ((rest = [] ∧ s = lvlName) ∨ s = lvlName ++ '-' :: rest) ∧
        (∀ p ∈ cache, MatchesName s p.1 → p.1.length ≤ lvlName.length) ∧
        ∃ op res, SuffixShape rest op res ∧
          cacheAllowed lvl &&& (1 <<< op) ≠ 0 ∧
          be = ⟨PERF_TYPE_HW_CACHE, lvl ||| (op <<< 8) ||| (res <<< 16)⟩) ∧
    resolveLegacyCache ("l1d-loads-stores".toList) = none ∧
    resolveBuiltinEvent [] ("l1d-loads-misses".toList)
      = resolveBuiltinEvent [] ("l1d-misses-loads".toList) ∧
    resolveBuiltinEvent [] ("l1d-loads".toList) = some ⟨PERF_TYPE_HW_CACHE, 0⟩ := by
  refine ⟨?_, by decide, by decide, by decide⟩
  intro s be h
  unfold resolveLegacyCache at h
  rcases hf : findCache s cache with _ | ⟨lvl, rest⟩ <;> rw [hf] at h
  · exact absurd h (by simp)
  · simp only at h
    by_cases hc : (cacheLoop 2 rest 0 0 false false).1 = [] ∧
        cacheAllowed lvl &&& (1 <<< (cacheLoop 2 rest 0 0 false false).2.1) ≠ 0
    · rw [if_pos hc] at h
      have hsort : cache.Pairwise (fun a b => b.1.length ≤ a.1.length) := by decide
      obtain ⟨lvlName, hmem, hdecomp, hlong⟩ := findCache_longest s cache lvl rest hsort hf
      refine ⟨lvlName, lvl, rest, hmem, hdecomp, hlong,
        (cacheLoop 2 rest 0 0 false false).2.1,
        (cacheLoop 2 rest 0 0 false false).2.2,
        cacheLoop_shape rest hc.1, hc.2, ?_⟩
      injection h with h2
      exact h2.symm
    · rw [if_neg hc] at h
      exact absurd h (by simp)

/-- Witness for C4: `bpu-Reference` (level `bpu`, default op `read`,
result token `Reference` = access) instantiates the decomposition. -/
theorem legacy_cache_parse_spec_w :
    ∃ lvlName lvl rest, (lvlName, lvl) ∈ cache ∧
      ((rest = [] ∧ "bpu-Reference".toList = lvlName) ∨
        "bpu-Reference".toList = lvlName ++ '-' :: rest) ∧
      (∀ p ∈ cache, MatchesName ("bpu-Reference".toList) p.1 →
        p.1.length ≤ lvlName.length) ∧
      ∃ op res, SuffixShape rest op res ∧
        cacheAllowed lvl &&& (1 <<< op) ≠ 0 ∧
        (⟨PERF_TYPE_HW_CACHE, 5⟩ : builtinEvent)
          = ⟨PERF_TYPE_HW_CACHE, lvl ||| (op <<< 8) ||| (res <<< 16)⟩ :=
  legacy_cache_parse_spec.1 ("bpu-Reference".toList) ⟨PERF_TYPE_HW_CACHE, 5⟩ (by decide)

/-- C5: built-in resolution returns not-found for any PMU name other than
empty or `cpu`; every hardware-table name resolves under both the empty
name and `cpu`; every software-table name resolves only under the empty
name and is not-found under `cpu`. -/
theorem resolveBuiltin_pmu_rules :
    (∀ pmu s, ¬(pmu = [] ∨ pmu = "cpu".toList) → resolveBuiltinEvent pmu s = none) ∧
    (∀ p ∈ builtinCPU, resolveBuiltinEvent [] p.1 = some p.2 ∧
      resolveBuiltinEvent ("cpu".toList) p.1 = some p.2) ∧
    (∀ p ∈ software, resolveBuiltinEvent [] p.1 = some p.2 ∧
      resolveBuiltinEvent ("cpu".toList) p.1 = none) := by
  refine ⟨?_, by decide, by decide⟩
  intro pmu s h
  simp only [resolveBuiltinEvent, if_pos h]

/-- Witness for C5: the PMU gate at `xxx`, the hardware name `cpu-cycles`
under both PMU names, and the software name `cpu-clock`. -/
theorem resolveBuiltin_pmu_rules_w :
    resolveBuiltinEvent ("xxx".toList) ("cpu-cycles".toList) = none ∧
    (resolveBuiltinEvent [] ("cpu-cycles".toList) = some ⟨PERF_TYPE_HARDWARE, 0⟩ ∧
      resolveBuiltinEvent ("cpu".toList) ("cpu-cycles".toList)
        = some ⟨PERF_TYPE_HARDWARE, 0⟩) ∧
    (resolveBuiltinEvent [] ("cpu-clock".toList) = some ⟨PERF_TYPE_SOFTWARE, 0⟩ ∧
      resolveBuiltinEvent ("cpu".toList) ("cpu-clock".toList) = none) :=
  ⟨resolveBuiltin_pmu_rules.1 ("xxx".toList) ("cpu-cycles".toList) (by decide),
   resolveBuiltin_pmu_rules.2.1 ("cpu-cycles".toList, ⟨PERF_TYPE_HARDWARE, 0⟩) (by decide),
   resolveBuiltin_pmu_rules.2.2 ("cpu-clock".toList, ⟨PERF_TYPE_SOFTWARE, 0⟩) (by decide)⟩

/-! ## events/parse.go and events/pmu.go: the event resolver -/

/-- One element of a parsed parameter list (struct `eventParam`):
`name`, `name=value`, with `kOnly` marking a lone key (value 1). -/
structure eventParam where
  k : String
  v : Nat
  kOnly : Bool
deriving DecidableEq, Repr

/-- A sysfs event template (struct `pmuEvent`): parameter list plus
scale/unit from the `.scale` and `.unit` files. -/
structure pmuEvent where
  name : String
  params : List eventParam
  scale : ℚ
  unit : String
deriving DecidableEq, Repr

/-- A PMU descriptor (struct `pmuDesc`): numeric type, named formats,
named event templates. -/
structure pmuDesc where
  pmu : Nat
  format : List (String × pmuFormat)
  events : List (String × pmuEvent)
deriving DecidableEq, Repr

/-- Association-list lookup standing in for a Go map with string keys. -/
def lookupStr {α : Type} : List (String × α) → String → Option α
  | [], _ => none
  | (n, c) :: rest, k => if k = n then some c else lookupStr rest k

/-- `formatAllBits`: the single full-width range of the built-in formats. -/
def formatAllBits : List formatBitRange := [⟨0, 64⟩]

/-- `pmuDesc.getFormat` (events/pmu.go lines 80-94): the four built-in
destination-only formats, then the parsed formats. -/
def pmuDesc.getFormat (d : pmuDesc) (param : String) : Option pmuFormat :=
  if param = "config" then some ⟨param, .config, formatAllBits⟩
  else if param = "config1" then some ⟨param, .config1, formatAllBits⟩
  else if param = "config2" then some ⟨param, .config2, formatAllBits⟩
  else if param = "period" then some ⟨param, .period, formatAllBits⟩
  else lookupStr d.format param

/-- The error values surfaced by event resolution, by meaning (the Go code
builds them with `fmt.Errorf`; the data carried is modelled, not the
rendered text). -/
inductive rErr
  | unknownEvent
  | unknownParam (param eventName : String)
  | outOfRange (e : SetError)
  | outOfRangeEnc (enc : String) (e : SetError)
  | unknownPMU (pmu : String)
  | multipleEvents (enc a b : String)
  | unknownEventEnc (enc : String)
  | unknownEventOrParam (enc param : String)
  | unknownParamInDesc (enc param : String)
deriving DecidableEq, Repr

/-- The parameter-application loop of `resolvePMUEvent`
(events/pmu.go lines 25-33): each template parameter must be a known
format and is applied with `set`; set errors propagate unwrapped. -/
def setParams (d : pmuDesc) (eventName : String) :
    List eventParam → rawEvent → Except rErr rawEvent
  | [], ev => .ok ev
  | p :: rest, ev =>
    match d.getFormat p.k with
    | none => .error (.unknownParam p.k eventName)
    | some f =>
      let out := f.set ev p.v
      match out.2 with
      | some e => .error (.outOfRange e)
      | none => setParams d eventName rest out.1

/-- `resolvePMUEvent` (events/pmu.go lines 20-37): look the event name up
in the descriptor's templates, apply the template's parameter list via
format-setters, then assign the template's scale and unit to the output
record. -/
def resolvePMUEvent (pmu : pmuDesc) (eventName : String) (ev : rawEvent) :
    Except rErr rawEvent :=
  match lookupStr pmu.events eventName with
  | none => .error .unknownEvent
  | some pmuEv =>
    match setParams pmu eventName pmuEv.params ev with
    | .error e => .error e
    | .ok ev2 => .ok { ev2 with scale := pmuEv.scale, unit := pmuEv.unit }

/-- Modelled from the spec: the sysfs event resolver in the signature used
by parse.go's `eventResolvers` list (returning the matched template) is
not under src/ in that form; per the spec's `sysfs_events` step it looks
the name up in `descriptor.events` (matching events/pmu.go lines 21-23). -/
def resolvePMUEventSpec (d : pmuDesc) (eventName : String) : Except rErr pmuEvent :=
  match lookupStr d.events eventName with
  | none => .error .unknownEvent
  | some ev => .ok ev

/-- The resolver loop inside `resolveEvent` (parse.go lines 173-186): try
each resolver in order; `errUnknownEvent` falls through to the next, any
other error aborts; exhaustion is unknown-event. -/
def tryResolvers (rs : List (pmuDesc → String → Except rErr pmuEvent))
    (d : pmuDesc) (k : String) : Except rErr pmuEvent :=
  match rs with
  | [] => .error .unknownEvent
  | r :: rest =>
    match r d k with
    | .ok ev => .ok ev
    | .error .unknownEvent => tryResolvers rest d k
    | .error e => .error e

/-- The first (classification) pass of `resolveEvent` (parse.go lines
166-193): formats are skipped for later, lone keys are offered to the
resolvers, a second resolved event name is `MultipleEvents`, anything else
fails with the symbolic or parameter error. -/
def classifyParams (rs : List (pmuDesc → String → Except rErr pmuEvent))
    (d : pmuDesc) (enc : String) (symEvent : Bool) :
    List eventParam → Nat → Option (pmuEvent × Nat) →
    Except rErr (Option (pmuEvent × Nat))
  | [], _, acc => .ok acc
  | p :: rest, i, acc =>
    if (d.getFormat p.k).isSome then classifyParams rs d enc symEvent rest (i + 1) acc
    else if p.kOnly then
      match tryResolvers rs d p.k with
      | .ok ev2 =>
        match acc with
        | some (ev1, _) => .error (.multipleEvents enc ev1.name ev2.name)
        | none => classifyParams rs d enc symEvent rest (i + 1) (some (ev2, i))
      | .error .unknownEvent =>
        if symEvent then .error (.unknownEventEnc enc)
        else .error (.unknownEventOrParam enc p.k)
      | .error e => .error e
    else
      if symEvent then .error (.unknownEventEnc enc)
      else .error (.unknownEventOrParam enc p.k)

/-- The second (application) pass of `resolveEvent` (parse.go lines
202-213): every remaining parameter must be a known format; set errors are
wrapped with the event encoding. -/
def applyParams (d : pmuDesc) (enc : String) :
    List eventParam → rawEvent → Except rErr rawEvent
  | [], ev => .ok ev
  | p :: rest, ev =>
    match d.getFormat p.k with
    | none => .error (.unknownParamInDesc enc p.k)
    | some f =>
      let out := f.set ev p.v
      match out.2 with
      | some e => .error (.outOfRangeEnc enc e)
      | none => applyParams d enc rest out.1

/-- The non-builtin tail of `resolveEvent` (parse.go lines 150-215):
substitute the implied `cpu` PMU, load the descriptor, classify, merge the
matched template's parameters ahead of the user's remaining parameters,
and apply. -/
def resolveEventRest (pmusGet : String → Except rErr pmuDesc)
    (rs : List (pmuDesc → String → Except rErr pmuEvent))
    (enc pmu : String) (params : List eventParam) : Except rErr rawEvent :=
  let symEvent := pmu = ""
  let pmu2 := if pmu = "" then "cpu" else pmu
  match pmusGet pmu2 with
  | .error e => .error e
  | .ok desc =>
    let event1 := { emptyRawEvent enc with pmu := desc.pmu }
    match classifyParams rs desc enc symEvent params 0 none with
    | .error e => .error e
    | .ok acc =>
      let params2 := match acc with
        | some (ev, i) => ev.params ++ params.take i ++ params.drop (i + 1)
        | none => params
      applyParams desc enc params2 event1

/-- `resolveEvent` (parse.go lines 128-216): a single lone key first tries
the built-in table and returns immediately on a hit; everything else goes
through the descriptor-based resolution. -/
def resolveEvent (pmusGet : String → Except rErr pmuDesc)
    (rs : List (pmuDesc → String → Except rErr pmuEvent))
    (enc pmu : String) (params : List eventParam) : Except rErr rawEvent :=
  match params with
  | [p] =>
    if p.kOnly then
      match resolveBuiltinEvent pmu.toList p.k.toList with
      | some be => .ok { emptyRawEvent enc with pmu := be.pmu, config := be.config }
      | none => resolveEventRest pmusGet rs enc pmu params
    else resolveEventRest pmusGet rs enc pmu params
  | _ => resolveEventRest pmusGet rs enc pmu params

/-- The `cpu` PMU descriptor of the test fixtures: RAW type (4), formats
`event`/`umask`/`edge`, and the templates `mem-stores`
(`event=0xd0,umask=0x82`), `cpu-cycles` (`event=0x3c`) and a scaled event
with a `.scale`/`.unit` pair. -/
def descCPU : pmuDesc :=
  ⟨4, [("event", fmtEvent), ("umask", fmtUmask), ("edge", fmtEdge)],
   [("mem-stores", ⟨"mem-stores", [⟨"event", 0xd0, false⟩, ⟨"umask", 0x82, false⟩], 1, ""⟩),
    ("cpu-cycles", ⟨"cpu-cycles", [⟨"event", 0x3c, false⟩], 1, ""⟩),
    ("scaled", ⟨"scaled", [⟨"event", 0, false⟩], 2.5e-10, "Joules"⟩)]⟩

/-- A `pmus.get` with only the `cpu` descriptor live. -/
def pmusGetCPU : String → Except rErr pmuDesc :=
  fun s => if s = "cpu" then .ok descCPU else .error (.unknownPMU s)

/-- An extended-events resolver that knows no events (perf list empty). -/
def extNone : pmuDesc → String → Except rErr pmuEvent :=
  fun _ _ => .error .unknownEvent

/-- C6: when a name hits `descriptor.events`, `resolvePMUEvent` applies the
template's parameter list via format-setters and assigns the template's
scale and unit to the output record. -/
theorem resolvePMUEvent_scale_unit (d : pmuDesc) (name : String) (ev : rawEvent)
    (T : pmuEvent) (hT : lookupStr d.events name = some T)
    (ev2 : rawEvent) (hset : setParams d name T.params ev = .ok ev2) :
    ∃ out, resolvePMUEvent d name ev = .ok out ∧
      out.scale = T.scale ∧ out.unit = T.unit ∧
      out.config = ev2.config ∧ out.config1 = ev2.config1 ∧
      out.config2 = ev2.config2 ∧ out.period = ev2.period := by
  refine ⟨{ ev2 with scale := T.scale, unit := T.unit }, ?_, rfl, rfl, rfl, rfl, rfl, rfl⟩
  unfold resolvePMUEvent
  simp only [hT, hset]

/-- Witness for C6: resolving the scaled test event yields a record
carrying the template's `2.5e-10` scale and `Joules` unit. -/
theorem resolvePMUEvent_scale_unit_w :
    ∃ out, resolvePMUEvent descCPU "scaled" (emptyRawEvent "fake/scaled/") = .ok out ∧
      out.scale = (2.5e-10 : ℚ) ∧ out.unit = "Joules" ∧
      out.config = 0 ∧ out.config1 = 0 ∧ out.config2 = 0 ∧ out.period = 0 :=
  resolvePMUEvent_scale_unit descCPU "scaled" (emptyRawEvent "fake/scaled/")
    ⟨"scaled", [⟨"event", 0, false⟩], 2.5e-10, "Joules"⟩ rfl
    ⟨"fake/scaled/", 0, 0, 0, 0, 0, 0, ""⟩ rfl

theorem tryResolvers_sysfs_hit (ext : pmuDesc → String → Except rErr pmuEvent)
    (d : pmuDesc) (k : String) (T : pmuEvent) (hT : lookupStr d.events k = some T) :
    tryResolvers [resolvePMUEventSpec, ext] d k = .ok T := by
  unfold tryResolvers resolvePMUEventSpec
  simp only [hT]

theorem classify_skip (rs : List (pmuDesc → String → Except rErr pmuEvent))
    (d : pmuDesc) (enc : String) (sym : Bool) (xs rest : List eventParam) (i : Nat)
    (acc : Option (pmuEvent × Nat))
    (hxs : ∀ p ∈ xs, (d.getFormat p.k).isSome) :
    classifyParams rs d enc sym (xs ++ rest) i acc
      = classifyParams rs d enc sym rest (i + xs.length) acc := by
  induction xs generalizing i with
  | nil => simp
  | cons p tail ih =>
    have hp : (d.getFormat p.k).isSome := hxs p (.head _)
    simp only [List.cons_append, classifyParams, if_pos hp, List.append_eq]
    rw [ih (i + 1) (fun q hq => hxs q (.tail _ hq))]
    congr 1
    simp only [List.length_cons]
    omega

theorem classify_hit (rs : List (pmuDesc → String → Except rErr pmuEvent))
    (d : pmuDesc) (enc : String) (sym : Bool) (e : eventParam)
    (rest : List eventParam) (i : Nat)
    (he : e.kOnly = true) (hef : d.getFormat e.k = none)
    (T : pmuEvent) (hT : tryResolvers rs d e.k = .ok T) :
    classifyParams rs d enc sym (e :: rest) i none
      = classifyParams rs d enc sym rest (i + 1) (some (T, i)) := by
  simp only [classifyParams, hef, Option.isSome_none, Bool.false_eq_true, if_false, he,
    if_true, hT]

theorem classify_formats_done (rs : List (pmuDesc → String → Except rErr pmuEvent))
    (d : pmuDesc) (enc : String) (sym : Bool) (ys : List eventParam) (i : Nat)
    (acc : Option (pmuEvent × Nat))
    (hys : ∀ p ∈ ys, (d.getFormat p.k).isSome) :
    classifyParams rs d enc sym ys i acc = .ok acc := by
  have h := classify_skip rs d enc sym ys [] i acc hys
  rw [List.append_nil] at h
  rw [h]
  rfl

theorem drop_append_cons {α : Type} (xs : List α) (e : α) (ys : List α) :
    (xs ++ e :: ys).drop (xs.length + 1) = ys := by
  induction xs with
  | nil => simp
  | cons x tail ih =>
    simp only [List.cons_append, List.length_cons, List.drop_succ_cons]
    exact ih

theorem resolveEventRest_merge (pmusGet : String → Except rErr pmuDesc)
    (ext : pmuDesc → String → Except rErr pmuEvent) (enc pmu : String) (desc : pmuDesc)
    (hdesc : pmusGet (if pmu = "" then "cpu" else pmu) = .ok desc)
    (e : eventParam) (he : e.kOnly = true) (hef : desc.getFormat e.k = none)
    (T : pmuEvent) (hT : lookupStr desc.events e.k = some T)
    (xs ys : List eventParam)
    (hxs : ∀ p ∈ xs, (desc.getFormat p.k).isSome)
    (hys : ∀ p ∈ ys, (desc.getFormat p.k).isSome) :
    resolveEventRest pmusGet [resolvePMUEventSpec, ext] enc pmu (xs ++ e :: ys)
      = applyParams desc enc (T.params ++ xs ++ ys)
          { emptyRawEvent enc with pmu := desc.pmu } := by
  unfold resolveEventRest
  simp only [hdesc, classify_skip _ _ _ _ xs (e :: ys) 0 none hxs,
    classify_hit _ _ _ _ e ys (0 + xs.length) he hef T
      (tryResolvers_sysfs_hit ext desc e.k T hT),
    classify_formats_done _ _ _ _ ys _ _ hys]
  simp only [Nat.zero_add, List.take_left, drop_append_cons]

theorem resolveEvent_ne_one (pmusGet : String → Except rErr pmuDesc)
    (rs : List (pmuDesc → String → Except rErr pmuEvent)) (enc pmu : String)
    (params : List eventParam) (h : params.length ≠ 1) :
    resolveEvent pmusGet rs enc pmu params = resolveEventRest pmusGet rs enc pmu params := by
  match params with
  | [] => rfl
  | [p] => exact absurd rfl h
  | p :: q :: rest => rfl

/-- C3: user-supplied parameters override template parameters regardless of
the position of the event name in the list: moving the event name to the
front does not change the result, and the resolved record is the template's
parameters applied first, then the remaining user parameters in their
original order. -/
theorem resolveEvent_override (pmusGet : String → Except rErr pmuDesc)
    (ext : pmuDesc → String → Except rErr pmuEvent) (enc pmu : String) (desc : pmuDesc)
    (hdesc : pmusGet (if pmu = "" then "cpu" else pmu) = .ok desc)
    (e : eventParam) (he : e.kOnly = true) (hef : desc.getFormat e.k = none)
    (T : pmuEvent) (hT : lookupStr desc.events e.k = some T)
    (xs ys : List eventParam)
    (hxs : ∀ p ∈ xs, (desc.getFormat p.k).isSome)
    (hys : ∀ p ∈ ys, (desc.getFormat p.k).isSome) :
    resolveEvent pmusGet [resolvePMUEventSpec, ext] enc pmu (xs ++ e :: ys)
      = resolveEvent pmusGet [resolvePMUEventSpec, ext] enc pmu (e :: (xs ++ ys)) ∧
    resolveEventRest pmusGet [resolvePMUEventSpec, ext] enc pmu (xs ++ e :: ys)
      = applyParams desc enc (T.params ++ xs ++ ys)
          { emptyRawEvent enc with pmu := desc.pmu } := by
  have hmerge1 := resolveEventRest_merge pmusGet ext enc pmu desc hdesc e he hef T hT
    xs ys hxs hys
  have hxys : ∀ p ∈ xs ++ ys, (desc.getFormat p.k).isSome := by
    intro p hp
    rcases List.mem_append.mp hp with h | h
    · exact hxs p h
    · exact hys p h
  have hmerge2 := resolveEventRest_merge pmusGet ext enc pmu desc hdesc e he hef T hT
    [] (xs ++ ys) (by intro p hp; simp at hp) hxys
  rw [List.nil_append, List.append_nil] at hmerge2
  refine ⟨?_, hmerge1⟩
  rcases xs with _ | ⟨x, xs2⟩
  · rcases ys with _ | ⟨y, ys2⟩
    · rfl
    · have hlen1 : (([] : List eventParam) ++ e :: y :: ys2).length ≠ 1 := by
        simp
      have hlen2 : (e :: (([] : List eventParam) ++ y :: ys2)).length ≠ 1 := by
        simp
      rw [resolveEvent_ne_one _ _ _ _ _ hlen1, resolveEvent_ne_one _ _ _ _ _ hlen2,
        hmerge1, hmerge2, List.append_assoc]
  · have hlen1 : ((x :: xs2) ++ e :: ys).length ≠ 1 := by
      simp
    have hlen2 : (e :: ((x :: xs2) ++ ys)).length ≠ 1 := by
      simp
    rw [resolveEvent_ne_one _ _ _ _ _ hlen1, resolveEvent_ne_one _ _ _ _ _ hlen2,
      hmerge1, hmerge2, List.append_assoc]

/-- Witness for C3: `cpu/edge,mem-stores/` resolves identically with the
event name moved to the front, and the two orderings from the spec's
example both yield `type=RAW(4), config = 0xd0 | 0x82<<8 | 1<<18`. -/
theorem resolveEvent_override_w :
    resolveEvent pmusGetCPU [resolvePMUEventSpec, extNone] "cpu/edge,mem-stores/" "cpu"
        [⟨"edge", 1, true⟩, ⟨"mem-stores", 1, true⟩]
      = resolveEvent pmusGetCPU [resolvePMUEventSpec, extNone] "cpu/edge,mem-stores/" "cpu"
        [⟨"mem-stores", 1, true⟩, ⟨"edge", 1, true⟩] ∧
    resolveEvent pmusGetCPU [resolvePMUEventSpec, extNone] "cpu/mem-stores,edge/" "cpu"
        [⟨"mem-stores", 1, true⟩, ⟨"edge", 1, true⟩]
      = .ok ⟨"cpu/mem-stores,edge/", 4, 0x482d0, 0, 0, 0, 0, ""⟩ ∧
    resolveEvent pmusGetCPU [resolvePMUEventSpec, extNone] "cpu/edge,mem-stores/" "cpu"
        [⟨"edge", 1, true⟩, ⟨"mem-stores", 1, true⟩]
      = .ok ⟨"cpu/edge,mem-stores/", 4, 0x482d0, 0, 0, 0, 0, ""⟩ :=
  ⟨(resolveEvent_override pmusGetCPU extNone "cpu/edge,mem-stores/" "cpu" descCPU rfl
      ⟨"mem-stores", 1, true⟩ rfl rfl
      ⟨"mem-stores", [⟨"event", 0xd0, false⟩, ⟨"umask", 0x82, false⟩], 1, ""⟩ rfl
      [⟨"edge", 1, true⟩] [] (by decide) (by decide)).1,
   by decide, by decide⟩

/-! ## oncemap.go: keyed at-most-once memoization

The `sync.Map`/`sync.Once` pair makes each `get` behave atomically; the
model runs a sequence of such atomic `get` calls.  The constructor is
given explicit state so that a second invocation could observably return a
different value: memoization, not constructor purity, must account for
callers seeing one answer. -/

/-- Generic association-list lookup for the once-map cache. -/
def lookupA {K α : Type} [DecidableEq K] : List (K × α) → K → Option α
  | [], _ => none
  | (n, c) :: rest, key => if key = n then some c else lookupA rest key

/-- The state of an `onceMap`: completed entries plus the constructor's
state thread. -/
structure OnceMap (K V S : Type) where
  cache : List (K × Except String V)
  ctorState : S

/-- `newOnceMap`: empty map. -/
def newOnceMap {K V S : Type} (s0 : S) : OnceMap K V S := ⟨[], s0⟩

/-- `onceMap.get`: return the completed entry if present, otherwise invoke
the constructor once, store the outcome (success or error), and return it.
The Bool records whether the constructor ran. -/
def onceMapGet {K V S : Type} [DecidableEq K]
    (ctor : S → K → Except String V × S) (m : OnceMap K V S) (k : K) :
    Except String V × OnceMap K V S × Bool :=
  match lookupA m.cache k with
  | some r => (r, m, false)
  | none =>
    let out := ctor m.ctorState k
    (out.1, ⟨(k, out.1) :: m.cache, out.2⟩, true)

/-- Run a sequence of `get` calls, collecting `(key, result, invoked)`. -/
def runGets {K V S : Type} [DecidableEq K] (ctor : S → K → Except String V × S) :
    List K → OnceMap K V S → List (K × Except String V × Bool) × OnceMap K V S
  | [], m => ([], m)
  | k :: rest, m =>
    let out := onceMapGet ctor m k
    let tr := runGets ctor rest out.2.1
    ((k, out.1, out.2.2) :: tr.1, tr.2)

theorem runGets_cached {K V S : Type} [DecidableEq K]
    (ctor : S → K → Except String V × S) (keys : List K) (m : OnceMap K V S)
    (k : K) (r : Except String V) (hk : lookupA m.cache k = some r) :
    (∀ e ∈ (runGets ctor keys m).1, e.1 = k → e.2.1 = r ∧ e.2.2 = false) ∧
    lookupA (runGets ctor keys m).2.cache k = some r := by
  induction keys generalizing m with
  | nil => exact ⟨by intro e he; simp [runGets] at he, hk⟩
  | cons k2 rest ih =>
    simp only [runGets, onceMapGet]
    rcases h2 : lookupA m.cache k2 with _ | r2
    · have hne : k ≠ k2 := by
        intro hkk
        rw [hkk, h2] at hk
        cases hk
      have hk2 : lookupA (OnceMap.mk ((k2, (ctor m.ctorState k2).1) :: m.cache)
          (ctor m.ctorState k2).2).cache k = some r := by
        simp only [lookupA, if_neg hne]
        exact hk
      obtain ⟨iha, ihb⟩ := ih _ hk2
      refine ⟨?_, ihb⟩
      intro e he hek
      simp only [List.mem_cons] at he
      rcases he with he | he
      · exfalso
        rw [he] at hek
        exact hne hek.symm
      · exact iha e he hek
    · obtain ⟨iha, ihb⟩ := ih _ hk
      refine ⟨?_, ihb⟩
      intro e he hek
      simp only [List.mem_cons] at he
      rcases he with he | he
      · rw [he] at hek ⊢
        simp only at hek ⊢
        rw [hek] at h2
        rw [h2] at hk
        injection hk with hk2
        exact ⟨hk2, by trivial⟩
      · exact iha e he hek

theorem runGets_step_miss {K V S : Type} [DecidableEq K]
    (ctor : S → K → Except String V × S) (rest : List K) (m : OnceMap K V S)
    (k2 : K) (h : lookupA m.cache k2 = none) :
    runGets ctor (k2 :: rest) m
      = ((k2, (ctor m.ctorState k2).1, true) ::
          (runGets ctor rest ⟨(k2, (ctor m.ctorState k2).1) :: m.cache,
            (ctor m.ctorState k2).2⟩).1,
         (runGets ctor rest ⟨(k2, (ctor m.ctorState k2).1) :: m.cache,
            (ctor m.ctorState k2).2⟩).2) := by
  simp [runGets, onceMapGet, h]

theorem runGets_step_hit {K V S : Type} [DecidableEq K]
    (ctor : S → K → Except String V × S) (rest : List K) (m : OnceMap K V S)
    (k2 : K) (r2 : Except String V) (h : lookupA m.cache k2 = some r2) :
    runGets ctor (k2 :: rest) m
      = ((k2, r2, false) :: (runGets ctor rest m).1, (runGets ctor rest m).2) := by
  simp [runGets, onceMapGet, h]

theorem runGets_props {K V S : Type} [DecidableEq K]
    (ctor : S → K → Except String V × S) (keys : List K) (m : OnceMap K V S) (k : K) :
    ((runGets ctor keys m).1.countP (fun e => decide (e.1 = k) && e.2.2)
        ≤ if (lookupA m.cache k).isNone then 1 else 0) ∧
    (∀ e1 ∈ (runGets ctor keys m).1, ∀ e2 ∈ (runGets ctor keys m).1,
        e1.1 = k → e2.1 = k → e1.2.1 = e2.2.1) ∧
    (lookupA m.cache k = none →
      ∀ e, (runGets ctor keys m).1.find? (fun e2 => decide (e2.1 = k)) = some e →
        e.2.2 = true) := by
  induction keys generalizing m with
  | nil =>
    refine ⟨by simp [runGets], ?_, ?_⟩
    · intro e1 he1
      simp [runGets] at he1
    · intro _ e he
      simp [runGets] at he
  | cons k2 rest ih =>
    rcases h2 : lookupA m.cache k2 with _ | r2
    · rw [runGets_step_miss ctor rest m k2 h2]
      by_cases hkk : k2 = k
      · subst hkk
        have hcached : lookupA (OnceMap.mk ((k2, (ctor m.ctorState k2).1) :: m.cache)
            (ctor m.ctorState k2).2).cache k2 = some (ctor m.ctorState k2).1 := by
          simp [lookupA]
        obtain ⟨hc_all, _⟩ := runGets_cached ctor rest _ k2 _ hcached
        have htail0 : ((runGets ctor rest ⟨(k2, (ctor m.ctorState k2).1) :: m.cache,
            (ctor m.ctorState k2).2⟩).1.countP (fun e => decide (e.1 = k2) && e.2.2)) = 0 := by
          rw [List.countP_eq_zero]
          intro e he
          by_cases hek : e.1 = k2
          · have := (hc_all e he hek).2
            simp [this]
          · simp [hek]
        refine ⟨?_, ?_, ?_⟩
        · rw [List.countP_cons, htail0]
          simp [h2]
        · intro e1 he1 e2 he2 h1k h2k
          have hval : ∀ e3, e3 ∈ (runGets ctor rest ⟨(k2, (ctor m.ctorState k2).1) :: m.cache,
              (ctor m.ctorState k2).2⟩).1 ∨ e3 = (k2, (ctor m.ctorState k2).1, true) →
              e3.1 = k2 → e3.2.1 = (ctor m.ctorState k2).1 := by
            intro e3 he3 he3k
            rcases he3 with he3 | he3
            · exact (hc_all e3 he3 he3k).1
            · rw [he3]
          have h1 := hval e1 (by rcases List.mem_cons.mp he1 with h | h
                                 · exact Or.inr h
                                 · exact Or.inl h) h1k
          have h2v := hval e2 (by rcases List.mem_cons.mp he2 with h | h
                                  · exact Or.inr h
                                  · exact Or.inl h) h2k
          rw [h1, h2v]
        · intro _ e he
          rw [List.find?_cons_of_pos _ (by simp)] at he
          injection he with he
          rw [← he]
      · have hkk2 : ¬(k = k2) := fun h => hkk h.symm
        have hl : lookupA (OnceMap.mk ((k2, (ctor m.ctorState k2).1) :: m.cache)
            (ctor m.ctorState k2).2).cache k = lookupA m.cache k := by
          simp [lookupA, hkk2]
        obtain ⟨iha, ihb, ihc⟩ := ih (OnceMap.mk ((k2, (ctor m.ctorState k2).1) :: m.cache)
            (ctor m.ctorState k2).2)
        rw [hl] at iha ihc
        refine ⟨?_, ?_, ?_⟩
        · rw [List.countP_cons]
          have hhead : (decide ((k2, (ctor m.ctorState k2).1, true).1 = k) &&
              (k2, (ctor m.ctorState k2).1, true).2.2) = false := by
            simp [hkk]
          rw [hhead]
          simpa using iha
        · intro e1 he1 e2 he2 h1k h2k
          rcases List.mem_cons.mp he1 with h1 | h1
          · exfalso
            rw [h1] at h1k
            exact hkk h1k
          rcases List.mem_cons.mp he2 with h2e | h2e
          · exfalso
            rw [h2e] at h2k
            exact hkk h2k
          exact ihb e1 h1 e2 h2e h1k h2k
        · intro hnone e he
          rw [List.find?_cons_of_neg _ (by simp [hkk])] at he
          exact ihc hnone e he
    · rw [runGets_step_hit ctor rest m k2 r2 h2]
      obtain ⟨iha, ihb, ihc⟩ := ih m
      by_cases hkk : k2 = k
      · subst hkk
        have hsome : lookupA m.cache k2 = some r2 := h2
        obtain ⟨hc_all, _⟩ := runGets_cached ctor rest m k2 r2 hsome
        refine ⟨?_, ?_, ?_⟩
        · rw [List.countP_cons]
          have hhead : (decide ((k2, r2, false).1 = k2) && (k2, r2, false).2.2) = false := by
            simp
          rw [hhead]
          have htail0 : ((runGets ctor rest m).1.countP
              (fun e => decide (e.1 = k2) && e.2.2)) = 0 := by
            rw [List.countP_eq_zero]
            intro e he
            by_cases hek : e.1 = k2
            · have := (hc_all e he hek).2
              simp [this]
            · simp [hek]
          rw [htail0]
          simp [hsome]
        · intro e1 he1 e2 he2 h1k h2k
          have hval : ∀ e3, e3 ∈ (runGets ctor rest m).1 ∨ e3 = (k2, r2, false) →
              e3.1 = k2 → e3.2.1 = r2 := by
            intro e3 he3 he3k
            rcases he3 with he3 | he3
            · exact (hc_all e3 he3 he3k).1
            · rw [he3]
          have h1 := hval e1 (by rcases List.mem_cons.mp he1 with h | h
                                 · exact Or.inr h
                                 · exact Or.inl h) h1k
          have h2v := hval e2 (by rcases List.mem_cons.mp he2 with h | h
                                  · exact Or.inr h
                                  · exact Or.inl h) h2k
          rw [h1, h2v]
        · intro hnone
          rw [hnone] at hsome
          exact Option.noConfusion hsome
      · refine ⟨?_, ?_, ?_⟩
        · rw [List.countP_cons]
          have hhead : (decide ((k2, r2, false).1 = k) && (k2, r2, false).2.2) = false := by
            simp
          rw [hhead]
          simpa using iha
        · intro e1 he1 e2 he2 h1k h2k
          rcases List.mem_cons.mp he1 with h1 | h1
          · exfalso
            rw [h1] at h1k
            exact hkk h1k
          rcases List.mem_cons.mp he2 with h2e | h2e
          · exfalso
            rw [h2e] at h2k
            exact hkk h2k
          exact ihb e1 h1 e2 h2e h1k h2k
        · intro hnone e he
          rw [List.find?_cons_of_neg _ (by simp [hkk])] at he
          exact ihc hnone e he

/-- C7: over any sequence of `get` calls starting from a fresh once-map,
the constructor runs at most once per key, every call for a key returns
the same (value, error) outcome — including sticky errors — and the first
call for a key is the one that constructs. -/
theorem onceMap_contract {K V S : Type} [DecidableEq K]
    (ctor : S → K → Except String V × S) (s0 : S) (keys : List K) (k : K) :
    ((runGets ctor keys (newOnceMap s0)).1.countP
        (fun e => decide (e.1 = k) && e.2.2) ≤ 1) ∧
    (∀ e1 ∈ (runGets ctor keys (newOnceMap s0)).1,
      ∀ e2 ∈ (runGets ctor keys (newOnceMap s0)).1,
        e1.1 = k → e2.1 = k → e1.2.1 = e2.2.1) ∧
    (∀ e, (runGets ctor keys (newOnceMap s0)).1.find?
        (fun e2 => decide (e2.1 = k)) = some e → e.2.2 = true) := by
  obtain ⟨h1, h2, h3⟩ := runGets_props ctor keys (newOnceMap s0) k
  refine ⟨?_, h2, h3 rfl⟩
  simpa [newOnceMap, lookupA] using h1

/-- A stateful constructor that errors on its first invocation only: a
second invocation would return success, so the repeated error below is
observable memoization. -/
def ctorW : Nat → Nat → Except String Nat × Nat :=
  fun s _ => (if s = 0 then .error "boom" else .ok s, s + 1)

/-- Witness for C7: two gets of key 7; one construction, and both calls
return the first (error) outcome. -/
theorem onceMap_contract_w :
    ((runGets ctorW [7, 7] (newOnceMap 0)).1.countP
        (fun e => decide (e.1 = 7) && e.2.2) ≤ 1) ∧
    ((7, (Except.error "boom" : Except String Nat), true).2.1
      = (7, (Except.error "boom" : Except String Nat), false).2.1) ∧
    (7, (Except.error "boom" : Except String Nat), true).2.2 = true :=
  ⟨(onceMap_contract ctorW 0 [7, 7] 7).1,
   (onceMap_contract ctorW 0 [7, 7] 7).2.1 (7, .error "boom", true) (by decide)
     (7, .error "boom", false) (by decide) rfl rfl,
   (onceMap_contract ctorW 0 [7, 7] 7).2.2 (7, .error "boom", true) (by decide)⟩

/-! ## perf/counter.go: counter lifecycle and group-read decoding -/

/-- An event as seen by `OpenCounter`: attribute data plus the optional
`EventScale` capability (`ScaleUnit`). -/
structure Event where
  typ : Nat
  config : Nat
  scaleUnit : Option (ℚ × String)
deriving DecidableEq, Repr

/-- Externally visible side effects of counter operations (ioctls, file
closing, thread unpinning). -/
inductive CounterEffect
  | ioctlEnable
  | ioctlDisable
  | closeFDs
  | unlockThread
deriving DecidableEq, Repr

/-- The `Counter` struct: per-event scales, descriptors (`none` models the
nil `c.f` of a closed counter), the running flag, the group size, and the
read-buffer length `3*8 + 8*n`. -/
structure Counter where
  eventScales : List GoScale
  f : Option (List Nat)
  running : Bool
  nEvents : Nat
  readBufLen : Nat
deriving DecidableEq, Repr

/-- Outcomes of the `perf_event_open` syscall, as consumed by
`OpenCounter`'s error handling. -/
inductive OpenErr
  | eacces
  | other (msg : String)
deriving DecidableEq, Repr

/-- Open the non-leader descriptors one syscall at a time
(perf/counter.go lines 138-154). -/
def openFDs (osOpen : Nat → Except OpenErr Nat) : Nat → Nat → Except OpenErr (List Nat)
  | _, 0 => .ok []
  | i, n + 1 =>
    match osOpen i with
    | .error e => .error e
    | .ok fd =>
      match openFDs osOpen (i + 1) n with
      | .error e => .error e
      | .ok fds => .ok (fd :: fds)

/-- `OpenCounter` (perf/counter.go lines 72-161), with the
`perf_event_open` syscall abstracted as an oracle and the
`perf_event_paranoid` file content as a parameter: an empty event list
returns a nil counter and nil error before any effect; otherwise the
leader is opened (an EACCES is enriched with the paranoia hint when the
sysctl is unreadable or positive), then the other members, then the
scales and read buffer are recorded. -/
def openCounter (osOpen : Nat → Except OpenErr Nat) (paranoid : Option Int)
    (evs : List Event) : Except String (Option Counter) :=
  match evs with
  | [] => .ok none
  | e0 :: restEvs =>
    let eventScales := (e0 :: restEvs).map fun e =>
      match e.scaleUnit with
      | some (s, u) => GoScale.mk s u
      | none => ⟨1, ""⟩
    match osOpen 0 with
    | .error .eacces =>
      match paranoid with
      | none => .error ("permission denied" ++
          " (consider: echo 0 | sudo tee /proc/sys/kernel/perf_event_paranoid)")
      | some v =>
        if v > 0 then
          .error ("permission denied" ++
            " (consider: echo 0 | sudo tee /proc/sys/kernel/perf_event_paranoid)")
        else .error "permission denied"
    | .error (.other m) => .error m
    | .ok fd =>
      match openFDs osOpen 1 restEvs.length with
      | .error .eacces => .error "permission denied"
      | .error (.other m) => .error m
      | .ok fds =>
        .ok (some ⟨eventScales, some (fd :: fds), false,
          (e0 :: restEvs).length, 3 * 8 + (e0 :: restEvs).length * 8⟩)

/-- `Counter.Close` (perf/counter.go lines 164-174): nil receiver and
already-closed counters return with no effect; otherwise the descriptors
are closed, `f` is set to nil and the thread unpinned. -/
def Counter.close : Option Counter → Option Counter × List CounterEffect
  | none => (none, [])
  | some c =>
    match c.f with
    | none => (some c, [])
    | some _ => (some { c with f := none }, [.closeFDs, .unlockThread])

/-- `Counter.Start` (perf/counter.go lines 177-183): nil or already
running is a no-op; otherwise set running and issue the enable ioctl. -/
def Counter.start : Option Counter → Option Counter × List CounterEffect
  | none => (none, [])
  | some c =>
    if c.running then (some c, [])
    else (some { c with running := true }, [.ioctlEnable])

/-- `Counter.Stop` (perf/counter.go lines 186-192): nil or stopped is a
no-op; otherwise issue the disable ioctl and clear running. -/
def Counter.stop : Option Counter → Option Counter × List CounterEffect
  | none => (none, [])
  | some c =>
    if c.running then (some { c with running := false }, [.ioctlDisable])
    else (some c, [])

/-- Decode a 64-bit value from the read buffer in the machine's native
byte order (modelled little-endian; the claims do not depend on the
order), as `binary.NativeEndian.Uint64(buf[off:])`. -/
def readU64 (buf : List Nat) (off : Nat) : Nat :=
  buf.getD off 0 +
  buf.getD (off + 1) 0 * 0x100 +
  buf.getD (off + 2) 0 * 0x10000 +
  buf.getD (off + 3) 0 * 0x1000000 +
  buf.getD (off + 4) 0 * 0x100000000 +
  buf.getD (off + 5) 0 * 0x10000000000 +
  buf.getD (off + 6) 0 * 0x1000000000000 +
  buf.getD (off + 7) 0 * 0x100000000000000

/-- `Counter.ReadGroup` (perf/counter.go lines 243-271) with the bytes the
kernel wrote into `c.readBuf` as a parameter: nil receiver returns nil
error leaving the buffer untouched; a closed counter errors; `nr` is
checked against `c.nEvents`; the loop fills `cs[i]` only for
`i < len(cs) && i < c.nEvents`. -/
def Counter.readGroup (c : Option Counter) (buf : List Nat) (cs : List Count) :
    Except String (List Count) :=
  match c with
  | none => .ok cs
  | some c =>
    match c.f with
    | none => .error "Counter is closed"
    | some _ =>
      let nr := readU64 buf 0
      if nr ≠ c.nEvents then
        .error ("read returned " ++ toString nr ++ " events, expected "
          ++ toString c.nEvents)
      else
        .ok (cs.mapIdx fun i old =>
          if i < c.nEvents then
            ⟨readU64 buf (24 + i * 8), readU64 buf 8, readU64 buf 16,
              c.eventScales.getD i ⟨0, ""⟩⟩
          else old)

/-- `Counter.ReadOne` (perf/counter.go lines 229-240): nil receiver yields
a zero `Count`; otherwise read a one-element group and return its head. -/
def Counter.readOne (c : Option Counter) (buf : List Nat) : Except String Count :=
  match c with
  | none => .ok ⟨0, 0, 0, ⟨0, ""⟩⟩
  | some _ =>
    match Counter.readGroup c buf [⟨0, 0, 0, ⟨0, ""⟩⟩] with
    | .error e => .error e
    | .ok cs => .ok (cs.getD 0 ⟨0, 0, 0, ⟨0, ""⟩⟩)

/-- C8: `OpenCounter` with no events returns a nil counter and nil error,
and every operation on the nil counter is a safe no-op: Start/Stop/Close
leave the (absent) state unchanged with no effects, ReadOne returns the
zero Count with nil error, ReadGroup returns nil error and leaves the
output buffer untouched. -/
theorem nil_counter_noops (osOpen : Nat → Except OpenErr Nat) (paranoid : Option Int)
    (buf : List Nat) (cs : List Count) :
    openCounter osOpen paranoid [] = .ok none ∧
    Counter.close none = (none, []) ∧
    Counter.start none = (none, []) ∧
    Counter.stop none = (none, []) ∧
    Counter.readOne none buf = .ok ⟨0, 0, 0, ⟨0, ""⟩⟩ ∧
    Counter.readGroup none buf cs = .ok cs :=
  ⟨rfl, rfl, rfl, rfl, rfl, rfl⟩

/-- C10: with an open counter and a kernel record whose `nr` equals the
declared group size, `ReadGroup` succeeds for ANY output buffer length:
the check is against `c.nEvents`, not `len(cs)`; exactly the first
`len(cs)` entries are (re)computed, extra events are dropped; and when
`nr` differs from the group size it fails regardless of the buffer. -/
theorem readGroup_short_buffer (c : Counter) (fds : List Nat) (hf : c.f = some fds)
    (buf : List Nat) (cs : List Count) :
    (readU64 buf 0 = c.nEvents →
      Counter.readGroup (some c) buf cs
        = .ok (cs.mapIdx fun i old =>
            if i < c.nEvents then
              ⟨readU64 buf (24 + i * 8), readU64 buf 8, readU64 buf 16,
                c.eventScales.getD i ⟨0, ""⟩⟩
            else old) ∧
      (cs.mapIdx fun i old =>
            if i < c.nEvents then
              (⟨readU64 buf (24 + i * 8), readU64 buf 8, readU64 buf 16,
                c.eventScales.getD i ⟨0, ""⟩⟩ : Count)
            else old).length = cs.length) ∧
    (readU64 buf 0 ≠ c.nEvents →
      Counter.readGroup (some c) buf cs
        = .error ("read returned " ++ toString (readU64 buf 0) ++ " events, expected "
            ++ toString c.nEvents)) := by
  constructor
  · intro h
    constructor
    · simp [Counter.readGroup, hf, h]
    · simp
  · intro h
    simp [Counter.readGroup, hf, h]

/-- A two-event counter for exercising group reads. -/
def cW : Counter := ⟨[⟨1, ""⟩, ⟨1, ""⟩], some [3, 4], true, 2, 40⟩

/-- Kernel bytes for `nr=2, time_enabled=100, time_running=50, values 7, 9`. -/
def bufW : List Nat :=
  [2, 0, 0, 0, 0, 0, 0, 0,
   100, 0, 0, 0, 0, 0, 0, 0,
   50, 0, 0, 0, 0, 0, 0, 0,
   7, 0, 0, 0, 0, 0, 0, 0,
   9, 0, 0, 0, 0, 0, 0, 0]

/-- Kernel bytes as above but with a mismatched `nr=3`. -/
def bufW3 : List Nat :=
  [3, 0, 0, 0, 0, 0, 0, 0,
   100, 0, 0, 0, 0, 0, 0, 0,
   50, 0, 0, 0, 0, 0, 0, 0,
   7, 0, 0, 0, 0, 0, 0, 0,
   9, 0, 0, 0, 0, 0, 0, 0]

/-- Witness for C10: a 1-element buffer against a 2-event group succeeds
and receives only the first value; a mismatched `nr` fails even though the
buffer length matches nothing in the check. -/
theorem readGroup_short_buffer_w :
    Counter.readGroup (some cW) bufW [⟨0, 0, 0, ⟨0, ""⟩⟩]
      = .ok [⟨7, 100, 50, ⟨1, ""⟩⟩] ∧
    ([(⟨7, 100, 50, ⟨1, ""⟩⟩ : Count)]).length = [(⟨0, 0, 0, ⟨0, ""⟩⟩ : Count)].length ∧
    Counter.readGroup (some cW) bufW3 [⟨0, 0, 0, ⟨0, ""⟩⟩]
      = .error "read returned 3 events, expected 2" :=
  ⟨((readGroup_short_buffer cW [3, 4] rfl bufW [⟨0, 0, 0, ⟨0, ""⟩⟩]).1 (by decide)).1,
   ((readGroup_short_buffer cW [3, 4] rfl bufW [⟨0, 0, 0, ⟨0, ""⟩⟩]).1 (by decide)).2,
   (readGroup_short_buffer cW [3, 4] rfl bufW3 [⟨0, 0, 0, ⟨0, ""⟩⟩]).2 (by decide)⟩
